import Mathlib

/-!
Verification development for the RAG subsystem of Desktop_Mate:
the document chunker (`DocumentChunker`), the vector store
(`VectorStore`), the embedding helper (`EmbeddingService`) and the
orchestration layer (`RAGService`).

JavaScript strings are modelled as lists of characters (`Str`); the
source operates on ASCII inputs character by character, so `List Char`
with JS-faithful helpers (`jsSplit`, `jsSliceNeg`, `trimStr`,
`normalizeCRLF`) is an exact model for the inputs considered here.
Machine floats are modelled as rationals; `Math.sqrt` is modelled by
`sqrtQ` (documented at its definition); the NaN produced by an
unguarded 0/0 division is modelled as `Option.none`.
-/

abbrev Str := List Char

/-- JS whitespace test used by `String.trim` and the regex class `\s`
(ASCII part; the inputs in this development are ASCII). -/
def isWS (c : Char) : Bool :=
  c = ' ' || c = '\t' || c = '\n' || c = '\r' || c.val = 11 || c.val = 12

/-- Model of `String.prototype.trim`: drop leading and trailing whitespace. -/
def trimStr (s : Str) : Str :=
  ((s.dropWhile isWS).reverse.dropWhile isWS).reverse

/-- Model of `s.slice(-n)` for a JS string `s` and a nonnegative `n`.
Note the JS quirk: `-0 === 0`, so `slice(-0)` is `slice(0)`, the WHOLE
string, not the empty string. -/
def jsSliceNeg (s : Str) (n : Nat) : Str :=
  if n = 0 then s else s.drop (s.length - n)

/-- Model of `array.slice(-3)` (in `chunkWithStructure`): the last three
elements, or all of them when fewer than three. -/
def lastThree (l : List Str) : List Str :=
  l.drop (l.length - 3)

/-- `dropPre sep s = some r` iff `s = sep ++ r`; used to find separator
occurrences the way `String.prototype.split` does. -/
def dropPre : Str → Str → Option Str
  | [], s => some s
  | _ :: _, [] => none
  | a :: as, b :: bs => if a = b then dropPre as bs else none

theorem dropPre_length {sep s r : Str} (h : dropPre sep s = some r) :
    s.length = sep.length + r.length := by
  induction sep generalizing s with
  | nil => simp [dropPre] at h; simp [h]
  | cons a as ih =>
    cases s with
    | nil => simp [dropPre] at h
    | cons b bs =>
      by_cases hab : a = b
      · simp [dropPre, hab] at h
        have := ih h
        simp [List.length_cons, this]
        omega
      · simp [dropPre, hab] at h

/-- Worker for `jsSplit`: scans left to right, cutting at each leftmost
non-overlapping occurrence of the (nonempty) separator `c0 :: sep`.
The recursion is driven by a fuel counter so that the definition is
structural (hence kernel-reducible); every call strictly shortens `s`,
so fuel `s.length + 1` (as supplied by `jsSplit`, see
`splitGo_fuel_irrelevant`) never reaches the `0` case. -/
def splitGo (c0 : Char) (sep : Str) : Nat → Str → Str → List Str
  | 0, _, acc => [acc.reverse]
  | fuel + 1, s, acc =>
    match dropPre (c0 :: sep) s with
    | some r => acc.reverse :: splitGo c0 sep fuel r []
    | none =>
      match s with
      | [] => [acc.reverse]
      | c :: rest => splitGo c0 sep fuel rest (c :: acc)

/-- Any fuel exceeding the length of the remaining string produces the
same split, so the choice `s.length + 1` in `jsSplit` is canonical. -/
theorem splitGo_fuel_irrelevant (c0 : Char) (sep : Str) :
    ∀ f g s acc, s.length < f → s.length < g →
      splitGo c0 sep f s acc = splitGo c0 sep g s acc := by
  intro f
  induction f with
  | zero => intro g s acc hf; omega
  | succ f ih =>
    intro g s acc hf hg
    cases g with
    | zero => omega
    | succ g =>
      simp only [splitGo]
      cases hdp : dropPre (c0 :: sep) s with
      | some r =>
        have := dropPre_length hdp
        simp only [List.length_cons] at this
        have hr : r.length < f := by omega
        have hr' : r.length < g := by omega
        exact congrArg (fun t => List.reverse acc :: t) (ih g r [] hr hr')
      | none =>
        cases s with
        | nil => rfl
        | cons c rest =>
          simp only [List.length_cons] at hf hg
          exact ih g rest (c :: acc) (by omega) (by omega)

/-- Model of `String.prototype.split(sep)`. An empty separator splits
into single characters (and `''.split('')` is `[]`), otherwise the
string is cut at each leftmost occurrence of `sep`. -/
def jsSplit (sep s : Str) : List Str :=
  match sep with
  | [] => s.map (fun c => [c])
  | c0 :: sepRest => splitGo c0 sepRest (s.length + 1) s []

/-- Model of `array.join(sep)`. -/
def joinSep (sep : Str) : List Str → Str
  | [] => []
  | [x] => x
  | x :: y :: xs => x ++ sep ++ joinSep sep (y :: xs)

/-- Model of `text.replace(/\r\n/g, '\n')` (global leftmost replacement). -/
def normalizeCRLF : Str → Str
  | [] => []
  | '\r' :: '\n' :: rest => '\n' :: normalizeCRLF rest
  | c :: rest => c :: normalizeCRLF rest

/-- Open key/value metadata map (`Record<string, unknown>`); the values
appearing in this subsystem are serializable strings. -/
abbrev Meta := List (String × String)

/-- Convert a character-list string to a Lean `String` (for metadata values). -/
def strOf (s : Str) : String := String.mk s

/-! ## DocumentChunker (src chunker service)

Embedding of the `DocumentChunker` class.  The configuration record
carries the four constructor fields (defaults 1000 / 200 / `"\n\n"` /
`false`).  The imperative loops of `chunkBySize` and
`chunkWithStructure` are embedded as structural recursions over the
part/line list; the mutable `chunks` array is the accumulator and the
mutable `chunkIndex` (which is incremented exactly once per emitted
chunk) becomes the position in the accumulated buffer list, applied by
`mapIdx` at the end. -/

structure ChunkCfg where
  maxChunkSize : Nat
  chunkOverlap : Nat
  separator : Str
  preserveStructure : Bool
deriving DecidableEq, Repr

/-- The constructor defaults: `{ maxChunkSize := 1000, chunkOverlap := 200,
separator := "\n\n", preserveStructure := false }`. -/
def defaultChunkCfg : ChunkCfg :=
  { maxChunkSize := 1000
    chunkOverlap := 200
    separator := ['\n', '\n']
    preserveStructure := false }

structure Chunk where
  id : Str
  documentId : Str
  content : Str
  index : Nat
  metadata : Option Meta
deriving DecidableEq, Repr

/-- `` `${documentId}-${index}` ``. -/
def mkChunkId (documentId : Str) (index : Nat) : Str :=
  documentId ++ ('-' :: (Nat.repr index).toList)

/-- Index-passing map used to assign `chunkIndex` positions. -/
def mapIdxFrom (f : Nat → α → β) : Nat → List α → List β
  | _, [] => []
  | i, x :: xs => f i x :: mapIdxFrom f (i + 1) xs

namespace DocumentChunker

/-- `DocumentChunker.createChunk`: builds the chunk object; the content
is trimmed. -/
def createChunk (documentId : Str) (content : Str) (index : Nat)
    (metadata : Option Meta) : Chunk :=
  { id := mkChunkId documentId index
    documentId := documentId
    content := trimStr content
    index := index
    metadata := metadata }

/-- The `for (const part of parts)` loop of `chunkBySize` together with
the final `if (currentChunk.trim())` flush, returning the raw (untrimmed)
buffers in emission order.  Each loop iteration builds
`testChunk = currentChunk + (currentChunk ? separator : '') + part`;
if `testChunk.length > maxChunkSize && currentChunk` the buffer is
flushed and reseeded with `currentChunk.slice(-Math.min(chunkOverlap,
currentChunk.length))`; afterwards the part is appended
unconditionally. -/
def sizeLoop (cfg : ChunkCfg) : List Str → Str → List Str → List Str
  | [], cur, bufs => if trimStr cur ≠ [] then bufs ++ [cur] else bufs
  | p :: rest, cur, bufs =>
    let test := cur ++ (if cur ≠ [] then cfg.separator else []) ++ p
    if test.length > cfg.maxChunkSize ∧ cur ≠ [] then
      let seed := jsSliceNeg cur (min cfg.chunkOverlap cur.length)
      sizeLoop cfg rest (seed ++ (if seed ≠ [] then cfg.separator else []) ++ p)
        (bufs ++ [cur])
    else
      sizeLoop cfg rest test bufs

/-- The buffers emitted by the long-text path of `chunkBySize` for a
given (already normalized) text. -/
def sizeBuffers (cfg : ChunkCfg) (text : Str) : List Str :=
  sizeLoop cfg (jsSplit cfg.separator text) [] []

/-- `DocumentChunker.chunkBySize`. -/
def chunkBySize (cfg : ChunkCfg) (documentId : Str) (text : Str)
    (metadata : Option Meta) : List Chunk :=
  if text.length ≤ cfg.maxChunkSize then
    [createChunk documentId text 0 metadata]
  else
    mapIdxFrom (fun i b => createChunk documentId b i metadata) 0
      (sizeBuffers cfg text)

/-- The markdown heading regex `/^(#{1,6})\s+(.+)$/` applied to one line
(which contains no `'\n'`): 1 to 6 leading `#`, at least one whitespace
character, then a nonempty remainder, which is capture group 2. -/
def headingMatch (line : Str) : Option Str :=
  let hashes := line.takeWhile (fun c => c = '#')
  if 1 ≤ hashes.length ∧ hashes.length ≤ 6 then
    let rest := line.drop hashes.length
    let ws := rest.takeWhile isWS
    let body := rest.dropWhile isWS
    if ws ≠ [] ∧ body ≠ [] then some body else none
  else none

/-- `{ ...metadata, heading: currentHeading || undefined }` as it is
observable after JSON round-tripping: the base map with the `heading`
key set to the current heading when it is nonempty and absent
otherwise (a JS key holding `undefined` is dropped by
`JSON.stringify`).  (The spread's in-place key ordering is not
preserved; no property proved here observes metadata key order.) -/
def headMeta (metadata : Option Meta) (heading : Str) : Meta :=
  (metadata.getD []).filter (fun kv => kv.1 ≠ "heading") ++
    (if heading = [] then [] else [("heading", strOf heading)])

/-- The `for (const line of lines)` loop of `chunkWithStructure` plus
the final flush, returning the raw buffers paired with the heading each
flush was tagged with.  A heading line flushes the current buffer
(tagged with the previous heading) and starts `line + '\n'`; an
overlong non-heading line flushes (tagged with the current heading) and
reseeds with the last three lines of the flushed buffer. -/
def structLoop (cfg : ChunkCfg) :
    List Str → Str → Str → List (Str × Str) → List (Str × Str)
  | [], cur, heading, acc =>
    if trimStr cur ≠ [] then acc ++ [(cur, heading)] else acc
  | line :: rest, cur, heading, acc =>
    match headingMatch line with
    | some h =>
      let acc' := if trimStr cur ≠ [] then acc ++ [(cur, heading)] else acc
      structLoop cfg rest (line ++ ['\n']) h acc'
    | none =>
      let test := cur ++ '\n' :: line
      if test.length > cfg.maxChunkSize ∧ trimStr cur ≠ [] then
        let seed := joinSep ['\n'] (lastThree (jsSplit ['\n'] cur))
        structLoop cfg rest (seed ++ '\n' :: line) heading
          (acc ++ [(cur, heading)])
      else
        structLoop cfg rest test heading acc

/-- `DocumentChunker.chunkWithStructure`. -/
def chunkWithStructure (cfg : ChunkCfg) (documentId : Str) (text : Str)
    (metadata : Option Meta) : List Chunk :=
  mapIdxFrom
    (fun i bh => createChunk documentId bh.1 i (some (headMeta metadata bh.2)))
    0 (structLoop cfg (jsSplit ['\n'] text) [] [] [])

/-- `DocumentChunker.chunk`: normalize line endings, then dispatch on
`preserveStructure`. -/
def chunk (cfg : ChunkCfg) (documentId : Str) (text : Str)
    (metadata : Option Meta) : List Chunk :=
  let normalizedText := normalizeCRLF text
  if cfg.preserveStructure then
    chunkWithStructure cfg documentId normalizedText metadata
  else
    chunkBySize cfg documentId normalizedText metadata

end DocumentChunker

/-! ## VectorStore (src vector-store service)

The SQLite state is modelled as two association lists keyed by
`chunk_id`: the `doc_chunks` table (document id, content, metadata —
the `created_at` column is set from the wall clock and observed by no
operation of this subsystem, so it is omitted) and the
`chunk_embeddings` table.  `INSERT OR REPLACE` deletes the conflicting
row and appends the new one (`upsert`).  better-sqlite3 runs with
`PRAGMA foreign_keys` on, so deleting a `doc_chunks` row cascade-deletes
its `chunk_embeddings` row (`ON DELETE CASCADE` in both variants of the
DDL); on the sqlite-vec path the delete trigger keeps the
`chunk_embeddings_vec` mirror identical to `chunk_embeddings`, so a
single embeddings list models both.  Embedding vectors are rationals
standing for the stored 32-bit floats. -/

/-- Decidable equality for `Except` results (used to evaluate the
search and similarity functions on concrete inputs). -/
instance exceptDecEq {ε α : Type} [DecidableEq ε] [DecidableEq α] :
    DecidableEq (Except ε α) := fun x y =>
  match x, y with
  | .ok a, .ok b =>
    if h : a = b then isTrue (by rw [h])
    else isFalse (by intro hc; cases hc; exact h rfl)
  | .error a, .error b =>
    if h : a = b then isTrue (by rw [h])
    else isFalse (by intro hc; cases hc; exact h rfl)
  | .ok _, .error _ => isFalse (by intro hc; cases hc)
  | .error _, .ok _ => isFalse (by intro hc; cases hc)

structure ChunkRow where
  documentId : Str
  content : Str
  metadata : Meta
deriving DecidableEq, Repr

structure Store where
  chunks : List (Str × ChunkRow)
  embeddings : List (Str × List ℚ)
deriving DecidableEq, Repr

structure SearchResult where
  chunkId : Str
  documentId : Str
  content : Str
  similarity : ℚ
  metadata : Meta
deriving DecidableEq, Repr

/-- `INSERT OR REPLACE` into a table with `key` as primary key: the
conflicting row (if any) is removed and the new row is appended. -/
def upsert (k : Str) (v : α) (l : List (Str × α)) : List (Str × α) :=
  l.filter (fun e => e.1 ≠ k) ++ [(k, v)]

/-- `dotProduct` accumulated by the similarity loops. -/
def dotProd (a b : List ℚ) : ℚ :=
  ((a.zip b).map (fun p => p.1 * p.2)).sum

/-- `normA`/`normB` accumulated by the similarity loops (the loop runs
over `i < a.length`, which equals `b.length` whenever the loop is
reached, the dimension check having thrown otherwise). -/
def sumSq (a : List ℚ) : ℚ :=
  (a.map (fun x => x * x)).sum

/-- Model of `Math.sqrt` on rationals.  On a nonpositive argument it is
`0`; on a perfect rational square it is the exact square root (every
concrete vector used in this development has a perfect-square norm, so
these evaluations are exact); on other positive arguments it falls back
to the argument itself — a positive stand-in whose exact value no
theorem in this development depends on.  The branch structure of the
source only observes the sign of the result, and `sqrtQ` agrees with
the real square root on signs: `sqrtQ q > 0 ↔ q > 0` for the
nonnegative sums of squares it is applied to. -/
def sqrtQ (q : ℚ) : ℚ :=
  if q ≤ 0 then 0
  else if (Nat.sqrt q.num.toNat) ^ 2 = q.num.toNat ∧ (Nat.sqrt q.den) ^ 2 = q.den
  then ((Nat.sqrt q.num.toNat : ℚ) / (Nat.sqrt q.den : ℚ))
  else q

theorem sqrtQ_pos_of_pos {q : ℚ} (h : 0 < q) : 0 < sqrtQ q := by
  unfold sqrtQ
  rw [if_neg (by exact absurd · (not_le.mpr h))]
  split
  · next hsq =>
    have hnum : 0 < q.num.toNat := by
      have := Rat.num_pos.mpr h
      omega
    have h1 : 0 < Nat.sqrt q.num.toNat := by
      by_contra hz
      have : Nat.sqrt q.num.toNat = 0 := by omega
      rw [this] at hsq
      simp at hsq
      omega
    have h2 : 0 < Nat.sqrt q.den := by
      by_contra hz
      have : Nat.sqrt q.den = 0 := by omega
      rw [this] at hsq
      have := q.den_pos
      simp at hsq
      omega
    exact div_pos (by exact_mod_cast h1) (by exact_mod_cast h2)
  · exact h

theorem sqrtQ_zero : sqrtQ 0 = 0 := by simp [sqrtQ]

namespace VectorStore

/-- `VectorStore.cosineSimilarity`: throws on a dimension mismatch,
otherwise divides the dot product by the product of the norms, with an
explicit `magnitude > 0` guard returning `0`. -/
def cosineSimilarity (a b : List ℚ) : Except String ℚ :=
  if a.length ≠ b.length then .error ("Vector dimensions must match")
  else
    let magnitude := sqrtQ (sumSq a) * sqrtQ (sumSq b)
    .ok (if 0 < magnitude then dotProd a b / magnitude else 0)

/-- One iteration of the `addChunks` transaction body: upsert the chunk
row, then the embedding row.  (`INSERT OR REPLACE` of the chunk row
cascade-deletes a pre-existing embedding row for the same id, which the
immediately following embedding upsert rewrites; `upsert` is the
combined effect.)  The stored metadata is
`JSON.stringify(chunk.metadata || {})`, i.e. the empty map when the
chunk carries none. -/
def addStep (ef : Str → List ℚ) (st : Store) (c : Chunk) : Store :=
  { chunks :=
      upsert c.id
        { documentId := c.documentId
          content := c.content
          metadata := c.metadata.getD [] } st.chunks
    embeddings := upsert c.id (ef c.content) st.embeddings }

/-- `VectorStore.addChunks`, with the batch embedding call
`embedBatch(texts)` represented by mapping the deterministic embedding
function `ef` over the chunk contents (order-preserving, as the source
sorts the response by index).  The early return on an empty chunk list
coincides with folding over `[]`. -/
def addChunks (ef : Str → List ℚ) (cs : List Chunk) (s : Store) : Store :=
  cs.foldl (addStep ef) s

/-- The chunk ids belonging to a document (used for the cascade). -/
def docChunkIds (documentId : Str) (s : Store) : List Str :=
  (s.chunks.filter (fun e => e.2.documentId = documentId)).map (fun e => e.1)

/-- `VectorStore.deleteDocument`: `DELETE FROM doc_chunks WHERE
document_id = ?`; the embedding rows of the deleted chunks go with them
by `ON DELETE CASCADE`. -/
def deleteDocument (documentId : Str) (s : Store) : Store :=
  let dead := docChunkIds documentId s
  { chunks := s.chunks.filter (fun e => e.2.documentId ≠ documentId)
    embeddings := s.embeddings.filter (fun e => e.1 ∉ dead) }

/-- `VectorStore.getChunk`: point lookup in `doc_chunks`; absent rows
give `null`; a found row is returned with `similarity: 1.0` and its
JSON metadata parsed back (`JSON.parse(row.metadata || '{}')`). -/
def getChunk (s : Store) (chunkId : Str) : Option SearchResult :=
  match s.chunks.find? (fun e => e.1 = chunkId) with
  | none => none
  | some e =>
    some
      { chunkId := e.1
        documentId := e.2.documentId
        content := e.2.content
        similarity := 1
        metadata := e.2.metadata }

/-- Lexicographic order on character-list strings (SQLite's ordering on
the ASCII document ids used here). -/
def strLe : Str → Str → Bool
  | [], _ => true
  | _ :: _, [] => false
  | a :: as, b :: bs => if a < b then true else if a = b then strLe as bs else false

def insortStr (x : Str) : List Str → List Str
  | [] => [x]
  | y :: ys => if strLe x y then x :: y :: ys else y :: insortStr x ys

def sortStrs (l : List Str) : List Str := l.foldr insortStr []

/-- `VectorStore.listDocuments`: `SELECT DISTINCT document_id FROM
doc_chunks ORDER BY document_id`. -/
def listDocuments (s : Store) : List Str :=
  sortStrs ((s.chunks.map (fun e => e.2.documentId)).dedup)

/-- `VectorStore.getDocumentStats`: `COUNT(*)` and `SUM(LENGTH(content))`
over the document's chunks, as the pair `(chunkCount, totalChars)`; the
`NULL` sum over an empty set is turned into `0` by the source's
`?? 0`. -/
def getDocumentStats (documentId : Str) (s : Store) : Nat × Nat :=
  let rows := s.chunks.filter (fun e => e.2.documentId = documentId)
  (rows.length, (rows.map (fun e => e.2.content.length)).sum)

/-- A row of the `doc_chunks ⋈ chunk_embeddings` join. -/
structure JoinedRow where
  chunkId : Str
  row : ChunkRow
  embedding : List ℚ
deriving DecidableEq, Repr

/-- The join driven by the chunks table (fallback-path `FROM doc_chunks c
JOIN chunk_embeddings e ON c.chunk_id = e.chunk_id`). -/
def chunkJoin (s : Store) : List JoinedRow :=
  s.chunks.filterMap (fun e =>
    (s.embeddings.find? (fun v => v.1 = e.1)).map
      (fun v => { chunkId := e.1, row := e.2, embedding := v.2 }))

/-- The join driven by the embeddings table (accelerated-path
`FROM chunk_embeddings_vec JOIN chunk_embeddings e ... JOIN doc_chunks c
ON c.chunk_id = e.chunk_id`, the vec mirror holding the same rows as
`chunk_embeddings`). -/
def embJoin (s : Store) : List JoinedRow :=
  s.embeddings.filterMap (fun v =>
    (s.chunks.find? (fun e => e.1 = v.1)).map
      (fun e => { chunkId := v.1, row := e.2, embedding := v.2 }))

/-- Modelled from the spec: the sqlite-vec extension (a binary
dependency, not part of this repository) is created with
`distance_metric=cosine`; per the spec's design note the accelerated
path's `1 - distance` equals cosine similarity exactly when this
distance is `1 - cosine_similarity`, which is the metric modelled
here. -/
def vecCosineDistance (a b : List ℚ) : Except String ℚ :=
  (cosineSimilarity a b).map (fun sim => 1 - sim)

structure VecCand where
  chunkId : Str
  row : ChunkRow
  distance : ℚ
deriving DecidableEq, Repr

/-- Stable insertion sort ascending by distance (the `ORDER BY distance`
of the accelerated query; kNN output of vec0 is distance-ascending). -/
def insAscByDist (x : VecCand) : List VecCand → List VecCand
  | [] => [x]
  | y :: ys =>
    if x.distance ≤ y.distance then x :: y :: ys else y :: insAscByDist x ys

def sortAscByDist (l : List VecCand) : List VecCand := l.foldr insAscByDist []

/-- Stable insertion sort descending by similarity (the fallback path's
`results.sort((a, b) => b.similarity - a.similarity)`; JS `sort` is
stable). -/
def insDescBySim (x : SearchResult) : List SearchResult → List SearchResult
  | [] => [x]
  | y :: ys =>
    if y.similarity ≤ x.similarity then x :: y :: ys else y :: insDescBySim x ys

def sortDescBySim (l : List SearchResult) : List SearchResult :=
  l.foldr insDescBySim []

/-- The accelerated (sqlite-vec) branch of `VectorStore.search`, for a
query embedding `q`: the virtual table's `MATCH ? AND k = ?` constraint
selects the `limit * 2` nearest rows over ALL stored embeddings
(`params = [queryBuffer, limit * 2]`), the optional
`AND c.document_id = ?` filter is applied to those, and `ORDER BY
distance LIMIT ?` keeps at most `limit` of them; each row is returned
with `similarity = 1 - distance`. -/
def vecSearch (s : Store) (q : List ℚ) (limit : Nat) (docFilter : Option Str) :
    Except String (List SearchResult) := do
  let cands ← (embJoin s).mapM (fun (r : JoinedRow) =>
    (vecCosineDistance q r.embedding).map
      (fun d => ({ chunkId := r.chunkId, row := r.row, distance := d } : VecCand)))
  let knn : List VecCand := (sortAscByDist cands).take (limit * 2)
  let filtered : List VecCand :=
    match docFilter with
    | some d => knn.filter (fun r => r.row.documentId = d)
    | none => knn
  pure ((filtered.take limit).map (fun r =>
    { chunkId := r.chunkId
      documentId := r.row.documentId
      content := r.row.content
      similarity := 1 - r.distance
      metadata := r.row.metadata }))

/-- The brute-force branch of `VectorStore.search`: scan the joined
rows (restricted to the document when a filter is given), compute
`cosineSimilarity` per row, sort descending and keep `limit`. -/
def fallbackSearch (s : Store) (q : List ℚ) (limit : Nat)
    (docFilter : Option Str) : Except String (List SearchResult) := do
  let rows : List JoinedRow :=
    match docFilter with
    | some d => (chunkJoin s).filter (fun r => r.row.documentId = d)
    | none => chunkJoin s
  let results ← rows.mapM (fun (r : JoinedRow) =>
    (cosineSimilarity q r.embedding).map (fun sim =>
      ({ chunkId := r.chunkId
         documentId := r.row.documentId
         content := r.row.content
         similarity := sim
         metadata := r.row.metadata } : SearchResult)))
  pure ((sortDescBySim results).take limit)

/-- `VectorStore.search`: embed the query (`ef query`), then dispatch on
`usingSqliteVec`. -/
def search (ef : Str → List ℚ) (useVec : Bool) (s : Store) (query : Str)
    (limit : Nat) (docFilter : Option Str) : Except String (List SearchResult) :=
  if useVec then vecSearch s (ef query) limit docFilter
  else fallbackSearch s (ef query) limit docFilter

end VectorStore

namespace EmbeddingService

/-- `EmbeddingService.cosineSimilarity` (the public static helper):
throws on a dimension mismatch, then divides the dot product by
`Math.sqrt(normA) * Math.sqrt(normB)` WITHOUT any zero-magnitude guard.
When either vector has zero norm the magnitude is `0`; the dot product
is then also `0` (that vector is all zeros), and the IEEE division
`0 / 0` yields `NaN`, modelled as `none`.  (`sqrtQ` is positive on
positive arguments, so the model's magnitude is zero exactly when a
real square root's would be.) -/
def cosineSimilarity (a b : List ℚ) : Except String (Option ℚ) :=
  if a.length ≠ b.length then .error ("Embedding dimensions must match")
  else
    let magnitude := sqrtQ (sumSq a) * sqrtQ (sumSq b)
    .ok (if magnitude = 0 then none else some (dotProd a b / magnitude))

end EmbeddingService

/-! ## RAGService (src/src/main/services/rag.ts) -/

structure RAGRetrievalOptions where
  maxResults : Option Nat
  minSimilarity : Option ℚ
  documentId : Option Str
  showScores : Option Bool
deriving DecidableEq, Repr

/-- The value returned by `RAGService.retrieve`; the formatted `context`
string is assembled purely from `results` ("Source N" numbering,
`toFixed(3)` score text, heading annotations) and is observed by none
of the claims, so the model carries the structured fields. -/
structure RAGResult where
  chunkCount : Nat
  results : List SearchResult
deriving DecidableEq, Repr

namespace RAGService

/-- `RAGService.indexDocument`: delete the document's existing chunks,
re-chunk the content, then add the chunks (with their embeddings) to
the store. -/
def indexDocument (ef : Str → List ℚ) (cfg : ChunkCfg) (documentId text : Str)
    (metadata : Option Meta) (s : Store) : Store :=
  VectorStore.addChunks ef (DocumentChunker.chunk cfg documentId text metadata)
    (VectorStore.deleteDocument documentId s)

/-- `RAGService.retrieve`: search the store for `maxResults * 2`
candidates (passing the optional document restriction through), filter
by `r.similarity >= minSimilarity`, truncate to `maxResults`, and
report `chunkCount = results.length`. -/
def retrieve (ef : Str → List ℚ) (useVec : Bool) (s : Store) (query : Str)
    (options : RAGRetrievalOptions) : Except String RAGResult := do
  let maxResults := options.maxResults.getD 3
  let minSimilarity := options.minSimilarity.getD 0
  let results0 ← VectorStore.search ef useVec s query (maxResults * 2)
    options.documentId
  let results1 := results0.filter (fun r => minSimilarity ≤ r.similarity)
  let results := results1.take maxResults
  pure { chunkCount := results.length, results := results }

end RAGService

/-! ## General lemmas -/

theorem length_dropWhile_le (p : α → Bool) (l : List α) :
    (l.dropWhile p).length ≤ l.length := by
  induction l with
  | nil => simp
  | cons a l ih =>
    by_cases h : p a
    · simp only [List.dropWhile_cons, if_pos h, List.length_cons]
      omega
    · simp [List.dropWhile_cons, if_neg h]

theorem trimStr_length_le (s : Str) : (trimStr s).length ≤ s.length := by
  unfold trimStr
  calc ((s.dropWhile isWS).reverse.dropWhile isWS).reverse.length
      = ((s.dropWhile isWS).reverse.dropWhile isWS).length := List.length_reverse _
    _ ≤ (s.dropWhile isWS).reverse.length := length_dropWhile_le _ _
    _ = (s.dropWhile isWS).length := List.length_reverse _
    _ ≤ s.length := length_dropWhile_le _ _

theorem mapIdxFrom_mem {f : Nat → α → β} {i : Nat} {l : List α} {b : β}
    (h : b ∈ mapIdxFrom f i l) : ∃ j x, x ∈ l ∧ b = f j x := by
  induction l generalizing i with
  | nil => simp [mapIdxFrom] at h
  | cons x xs ih =>
    simp only [mapIdxFrom, List.mem_cons] at h
    rcases h with h | h
    · exact ⟨i, x, by simp, h⟩
    · obtain ⟨j, y, hy, hb⟩ := ih h
      exact ⟨j, y, by simp [hy], hb⟩

/-- When the requested slice width is positive, `jsSliceNeg` keeps at
most `n` trailing characters. -/
theorem jsSliceNeg_length_le {s : Str} {n : Nat} (hn : n ≠ 0) :
    (jsSliceNeg s n).length ≤ n := by
  unfold jsSliceNeg
  rw [if_neg hn, List.length_drop]
  omega

namespace DocumentChunker

/-- Loop invariant for the size bound: provided the overlap is at least
one character and every remaining part fits in `maxChunkSize`, a running
buffer no longer than `maxChunkSize + chunkOverlap + |separator|` keeps
every emitted buffer within that bound. -/
theorem sizeLoop_bound (cfg : ChunkCfg) (hO : 1 ≤ cfg.chunkOverlap) :
    ∀ parts cur bufs,
      (∀ p ∈ parts, p.length ≤ cfg.maxChunkSize) →
      cur.length ≤ cfg.maxChunkSize + cfg.chunkOverlap + cfg.separator.length →
      (∀ b ∈ bufs, b.length ≤ cfg.maxChunkSize + cfg.chunkOverlap + cfg.separator.length) →
      ∀ b ∈ sizeLoop cfg parts cur bufs,
        b.length ≤ cfg.maxChunkSize + cfg.chunkOverlap + cfg.separator.length := by
  intro parts
  induction parts with
  | nil =>
    intro cur bufs _ hcur hbufs b hb
    unfold sizeLoop at hb
    by_cases ht : trimStr cur ≠ []
    · rw [if_pos ht] at hb
      rcases List.mem_append.mp hb with h | h
      · exact hbufs b h
      · have hbc : b = cur := by simpa using h
        rw [hbc]
        exact hcur
    · rw [if_neg ht] at hb
      exact hbufs b hb
  | cons p rest ih =>
    intro cur bufs hparts hcur hbufs b hb
    have hp : p.length ≤ cfg.maxChunkSize := hparts p (by simp)
    have hrest : ∀ q ∈ rest, q.length ≤ cfg.maxChunkSize := by
      intro q hq; exact hparts q (by simp [hq])
    unfold sizeLoop at hb
    by_cases hcond :
        (cur ++ (if cur ≠ [] then cfg.separator else []) ++ p).length > cfg.maxChunkSize
          ∧ cur ≠ []
    · rw [if_pos hcond] at hb
      have hcl : 1 ≤ cur.length := by
        rcases Nat.eq_zero_or_pos cur.length with hz | hpos
        · exact absurd (List.eq_nil_of_length_eq_zero hz) hcond.2
        · omega
      have hmin : min cfg.chunkOverlap cur.length ≠ 0 := by
        have : 0 < min cfg.chunkOverlap cur.length := lt_min (by omega) (by omega)
        omega
      have hseed : (jsSliceNeg cur (min cfg.chunkOverlap cur.length)).length
          ≤ cfg.chunkOverlap := by
        have h1 := jsSliceNeg_length_le (s := cur) hmin
        have h2 : min cfg.chunkOverlap cur.length ≤ cfg.chunkOverlap := min_le_left _ _
        omega
      refine ih _ _ hrest ?_ ?_ b hb
      · have hsep :
            (if jsSliceNeg cur (min cfg.chunkOverlap cur.length) ≠ [] then cfg.separator
              else []).length ≤ cfg.separator.length := by
          split <;> simp
        simp only [List.length_append]
        omega
      · intro x hx
        rcases List.mem_append.mp hx with h | h
        · exact hbufs x h
        · have hxc : x = cur := by simpa using h
          rw [hxc]
          exact hcur
    · rw [if_neg hcond] at hb
      refine ih _ _ hrest ?_ hbufs b hb
      rcases Decidable.not_and_iff_or_not.mp hcond with h | h
      · omega
      · have hcur0 : cur = [] := Decidable.not_not.mp h
        subst hcur0
        simp
        omega

end DocumentChunker

/-! ## Concrete inputs used by witnesses and counterexamples -/

/-- Size-mode configuration with `maxChunkSize 10`, `chunkOverlap 5`. -/
def sizeCfg10 : ChunkCfg :=
  { maxChunkSize := 10, chunkOverlap := 5, separator := ['\n', '\n'],
    preserveStructure := false }

/-- Three 8-character paragraphs: every separator-delimited part is
within `maxChunkSize 10`, yet overlap seeding makes 15-character
chunks. -/
def textAAA : Str := ("aaaaaaaa\n\nbbbbbbbb\n\ncccccccc").toList

/-- Size-mode configuration with `maxChunkSize 10`, `chunkOverlap 3`. -/
def sizeCfg10o3 : ChunkCfg :=
  { maxChunkSize := 10, chunkOverlap := 3, separator := ['\n', '\n'],
    preserveStructure := false }

/-- Text whose overlap slice starts with a space, so trimming breaks
content-level overlap. -/
def textABCDE : Str := ("abc de\n\nfghij").toList

/-- Structure-mode configuration with the default sizes. -/
def structCfg : ChunkCfg :=
  { maxChunkSize := 1000, chunkOverlap := 200, separator := ['\n', '\n'],
    preserveStructure := true }

/-- An 11-character markdown document with two headings. -/
def textHeadings : Str := ("# A\nx\n# B\ny").toList

/-! ## C1: size-mode chunk size bound -/

/-- C1 (corrected): in size mode with `chunkOverlap ≥ 1`, when every
separator-delimited part of the normalized text has length at most
`maxChunkSize`, every emitted chunk's content length is at most
`maxChunkSize + chunkOverlap + |separator|` (the claim's bound of plain
`maxChunkSize` fails because a flushed buffer is reseeded with up to
`chunkOverlap` characters plus a separator before the next part is
appended — see the counterexample). -/
theorem C1_size_mode_chunk_bound (cfg : ChunkCfg) (documentId text : Str)
    (metadata : Option Meta) (hps : cfg.preserveStructure = false)
    (hO : 1 ≤ cfg.chunkOverlap)
    (hparts : ∀ p ∈ jsSplit cfg.separator (normalizeCRLF text),
      p.length ≤ cfg.maxChunkSize) :
    ∀ c ∈ DocumentChunker.chunk cfg documentId text metadata,
      c.content.length ≤ cfg.maxChunkSize + cfg.chunkOverlap + cfg.separator.length := by
  intro c hc
  unfold DocumentChunker.chunk at hc
  rw [hps] at hc
  simp only [Bool.false_eq_true, if_false] at hc
  unfold DocumentChunker.chunkBySize at hc
  by_cases hshort : (normalizeCRLF text).length ≤ cfg.maxChunkSize
  · rw [if_pos hshort] at hc
    have hceq : c = DocumentChunker.createChunk documentId (normalizeCRLF text) 0 metadata := by
      simpa using hc
    rw [hceq]
    unfold DocumentChunker.createChunk
    have := trimStr_length_le (normalizeCRLF text)
    simp only
    omega
  · rw [if_neg hshort] at hc
    obtain ⟨j, b, hbmem, hceq⟩ := mapIdxFrom_mem hc
    have hb : b.length ≤ cfg.maxChunkSize + cfg.chunkOverlap + cfg.separator.length := by
      refine DocumentChunker.sizeLoop_bound cfg hO
        (jsSplit cfg.separator (normalizeCRLF text)) [] [] hparts (by simp) (by simp) b ?_
      exact hbmem
    rw [hceq]
    unfold DocumentChunker.createChunk
    have := trimStr_length_le b
    simp only
    omega

/-- C1 counterexample: with `maxChunkSize 10`, `chunkOverlap 5` and the
default separator, for `textAAA` every separator-delimited part has
length 8 ≤ 10, yet the chunker emits a chunk of content length 15 > 10:
the claimed bound (`≤ maxChunkSize` unless a single part exceeds it)
is violated. -/
theorem C1_counterexample :
    (∀ p ∈ jsSplit sizeCfg10.separator (normalizeCRLF textAAA),
      p.length ≤ sizeCfg10.maxChunkSize) ∧
    ∃ c ∈ DocumentChunker.chunk sizeCfg10 (("d").toList) textAAA none,
      sizeCfg10.maxChunkSize < c.content.length := by decide

/-- C1 witness: the corrected bound holds at the same concrete input,
with every chunk's content length at most 10 + 5 + 2 = 17. -/
theorem C1_witness :
    (1 ≤ sizeCfg10.chunkOverlap) ∧
    (∀ c ∈ DocumentChunker.chunk sizeCfg10 (("d").toList) textAAA none,
      c.content.length ≤ sizeCfg10.maxChunkSize + sizeCfg10.chunkOverlap
        + sizeCfg10.separator.length) :=
  ⟨by decide,
    C1_size_mode_chunk_bound sizeCfg10 (("d").toList) textAAA none rfl
      (by decide) (by decide)⟩

/-! ## C6: short documents -/

/-- C6 (amended to size mode): with `preserveStructure` off, a text
whose normalized length is at most `maxChunkSize` yields exactly the
single chunk of index 0 (the whole trimmed text).  In structure mode
the rule fails: headings split even short documents — see the
counterexample. -/
theorem C6_short_document_single_chunk (cfg : ChunkCfg) (documentId text : Str)
    (metadata : Option Meta) (hps : cfg.preserveStructure = false)
    (hlen : (normalizeCRLF text).length ≤ cfg.maxChunkSize) :
    DocumentChunker.chunk cfg documentId text metadata =
      [DocumentChunker.createChunk documentId (normalizeCRLF text) 0 metadata] := by
  unfold DocumentChunker.chunk DocumentChunker.chunkBySize
  rw [hps]
  simp [hlen]

/-- C6 counterexample: an 11-character document (≤ `maxChunkSize` 1000)
chunked in structure mode produces two chunks, not one. -/
theorem C6_counterexample :
    (normalizeCRLF textHeadings).length ≤ structCfg.maxChunkSize ∧
    (DocumentChunker.chunk structCfg (("d").toList) textHeadings none).length = 2 := by
  decide

/-- C6 witness: the amended size-mode rule at a concrete short text. -/
theorem C6_witness :
    DocumentChunker.chunk defaultChunkCfg (("doc").toList) (("hello world").toList) none =
      [DocumentChunker.createChunk (("doc").toList) (("hello world").toList) 0 none] :=
  C6_short_document_single_chunk defaultChunkCfg (("doc").toList)
    (("hello world").toList) none rfl (by decide)

/-! ## C7: overlap preservation -/

theorem isPrefixOf_append_self (a b : Str) : a.isPrefixOf (a ++ b) = true := by
  induction a with
  | nil => simp [List.isPrefixOf]
  | cons x xs ih => simp [List.isPrefixOf, ih]

theorem isPrefixOf_extend {a b : Str} (c : Str) (h : a.isPrefixOf b = true) :
    a.isPrefixOf (b ++ c) = true := by
  induction a generalizing b with
  | nil => simp [List.isPrefixOf]
  | cons x xs ih =>
    cases b with
    | nil => simp [List.isPrefixOf] at h
    | cons y ys =>
      simp only [List.isPrefixOf, Bool.and_eq_true, beq_iff_eq] at h
      simp only [List.cons_append, List.isPrefixOf, Bool.and_eq_true, beq_iff_eq]
      exact ⟨h.1, ih h.2⟩

/-- The seed taken from a nonempty buffer with positive overlap is
nonempty. -/
theorem seed_ne_nil {cfg : ChunkCfg} (hO : 1 ≤ cfg.chunkOverlap) {cur : Str}
    (hcur : cur ≠ []) :
    jsSliceNeg cur (min cfg.chunkOverlap cur.length) ≠ [] := by
  have hcl : 1 ≤ cur.length := by
    rcases Nat.eq_zero_or_pos cur.length with hz | hpos
    · exact absurd (List.eq_nil_of_length_eq_zero hz) hcur
    · omega
  have hmin : min cfg.chunkOverlap cur.length ≠ 0 := by
    have : 0 < min cfg.chunkOverlap cur.length := lt_min (by omega) (by omega)
    omega
  unfold jsSliceNeg
  rw [if_neg hmin]
  intro hnil
  have := congrArg List.length hnil
  simp only [List.length_drop, List.length_nil] at this
  have hle : min cfg.chunkOverlap cur.length ≤ cur.length := min_le_right _ _
  omega

/-- The overlap relation between consecutive emitted buffers: the next
buffer starts with the seed `cur.slice(-Math.min(chunkOverlap,
cur.length))` taken from the previous one. -/
def ovlOK (cfg : ChunkCfg) (a b : Str) : Prop :=
  (jsSliceNeg a (min cfg.chunkOverlap a.length)).isPrefixOf b = true

/-- Loop invariant for overlap preservation: the buffers flushed so far
are chained by `ovlOK`, the running buffer extends the seed of the last
flushed buffer, and it is nonempty whenever anything was flushed. -/
theorem sizeLoop_chain (cfg : ChunkCfg) (hO : 1 ≤ cfg.chunkOverlap) :
    ∀ parts cur bufs,
      (bufs ≠ [] → cur ≠ []) →
      List.Chain' (ovlOK cfg) bufs →
      (∀ last, bufs.getLast? = some last → ovlOK cfg last cur) →
      List.Chain' (ovlOK cfg) (DocumentChunker.sizeLoop cfg parts cur bufs) := by
  intro parts
  induction parts with
  | nil =>
    intro cur bufs hne hchain hlink
    unfold DocumentChunker.sizeLoop
    by_cases ht : trimStr cur ≠ []
    · rw [if_pos ht]
      rw [List.chain'_append]
      refine ⟨hchain, by simp, ?_⟩
      intro x hx y hy
      simp at hy
      rw [← hy]
      exact hlink x (Option.mem_def.mp hx)
    · rw [if_neg ht]
      exact hchain
  | cons p rest ih =>
    intro cur bufs hne hchain hlink
    unfold DocumentChunker.sizeLoop
    by_cases hcond :
        (cur ++ (if cur ≠ [] then cfg.separator else []) ++ p).length > cfg.maxChunkSize
          ∧ cur ≠ []
    · rw [if_pos hcond]
      have hseedne := seed_ne_nil hO hcond.2
      refine ih _ _ ?_ ?_ ?_
      · intro _
        rw [if_pos hseedne]
        intro hnil
        have := congrArg List.length hnil
        simp only [List.length_append, List.length_nil] at this
        have : (jsSliceNeg cur (min cfg.chunkOverlap cur.length)).length = 0 := by omega
        exact hseedne (List.eq_nil_of_length_eq_zero this)
      · rw [List.chain'_append]
        refine ⟨hchain, by simp, ?_⟩
        intro x hx y hy
        simp at hy
        rw [← hy]
        exact hlink x (Option.mem_def.mp hx)
      · intro last hlast
        simp only [List.getLast?_append, List.getLast?_singleton] at hlast
        have hlc : cur = last := by
          simpa using hlast
        rw [← hlc]
        unfold ovlOK
        rw [if_pos hseedne, List.append_assoc]
        exact isPrefixOf_append_self _ _
    · rw [if_neg hcond]
      refine ih _ _ ?_ hchain ?_
      · intro hb
        have hcur := hne hb
        intro hnil
        have := congrArg List.length hnil
        simp only [List.length_append, List.length_nil] at this
        have : cur.length = 0 := by omega
        exact hcur (List.eq_nil_of_length_eq_zero this)
      · intro last hlast
        have := hlink last hlast
        unfold ovlOK at this ⊢
        rw [List.append_assoc]
        exact isPrefixOf_extend _ this

/-- The contents of the chunks produced from a buffer list are the
trimmed buffers, position by position. -/
theorem mapIdxFrom_content (documentId : Str) (metadata : Option Meta) :
    ∀ n (bufs : List Str),
      (mapIdxFrom (fun i b => DocumentChunker.createChunk documentId b i metadata) n bufs).map
          (fun c => c.content)
        = bufs.map trimStr := by
  intro n bufs
  induction bufs generalizing n with
  | nil => simp [mapIdxFrom]
  | cons b bs ih =>
    simp only [mapIdxFrom, List.map_cons]
    rw [ih]
    simp [DocumentChunker.createChunk]

/-- C7 (corrected): for size mode with positive overlap and at least
two chunks produced, the overlap property holds at the level of the
untrimmed buffers underlying the chunks: each chunk's content is the
trim of its buffer (first conjunct), and each buffer begins with the
trailing `min(chunkOverlap, length)` characters of the previous buffer
(second conjunct).  At the level of trimmed contents the claim fails,
because trimming can strip whitespace from the overlap slice — see the
counterexample. -/
theorem C7_overlap_buffers (cfg : ChunkCfg) (documentId text : Str)
    (metadata : Option Meta) (hps : cfg.preserveStructure = false)
    (hO : 1 ≤ cfg.chunkOverlap)
    (hmany : 2 ≤ (DocumentChunker.chunk cfg documentId text metadata).length) :
    ((DocumentChunker.chunk cfg documentId text metadata).map (fun c => c.content)
        = (DocumentChunker.sizeBuffers cfg (normalizeCRLF text)).map trimStr) ∧
    ∀ i (h1 : i < (DocumentChunker.sizeBuffers cfg (normalizeCRLF text)).length)
      (h2 : i + 1 < (DocumentChunker.sizeBuffers cfg (normalizeCRLF text)).length),
      (jsSliceNeg ((DocumentChunker.sizeBuffers cfg (normalizeCRLF text)).get ⟨i, h1⟩)
          (min cfg.chunkOverlap
            ((DocumentChunker.sizeBuffers cfg (normalizeCRLF text)).get ⟨i, h1⟩).length)).isPrefixOf
        ((DocumentChunker.sizeBuffers cfg (normalizeCRLF text)).get ⟨i + 1, h2⟩) = true := by
  have hlong : ¬ (normalizeCRLF text).length ≤ cfg.maxChunkSize := by
    intro hshort
    have := C6_short_document_single_chunk cfg documentId text metadata hps hshort
    rw [this] at hmany
    simp at hmany
  have hchunk : DocumentChunker.chunk cfg documentId text metadata
      = mapIdxFrom (fun i b => DocumentChunker.createChunk documentId b i metadata) 0
          (DocumentChunker.sizeBuffers cfg (normalizeCRLF text)) := by
    unfold DocumentChunker.chunk
    rw [hps]
    simp only [Bool.false_eq_true, if_false]
    unfold DocumentChunker.chunkBySize
    rw [if_neg hlong]
  constructor
  · rw [hchunk]
    exact mapIdxFrom_content documentId metadata 0 _
  · have hchain : List.Chain' (ovlOK cfg) (DocumentChunker.sizeBuffers cfg (normalizeCRLF text)) := by
      unfold DocumentChunker.sizeBuffers
      exact sizeLoop_chain cfg hO _ [] [] (by simp) (by simp) (by simp)
    intro i h1 h2
    have := List.chain'_iff_get.mp hchain i (by omega)
    exact this

/-- C7 counterexample: with `chunkOverlap 3` the chunker emits the two
chunks `"abc de"` and `"de\n\nfghij"`; the trailing `min(3, 6)`
characters of chunk 0's content are `" de"`, but chunk 1's content
begins with `"de"` — the space was trimmed away, so the claim (stated
on trimmed contents) is false. -/
theorem C7_counterexample :
    (DocumentChunker.chunk sizeCfg10o3 (("d").toList) textABCDE none).map
        (fun c => c.content)
      = [("abc de").toList, ("de\n\nfghij").toList] ∧
    ¬ ((jsSliceNeg (("abc de").toList)
          (min sizeCfg10o3.chunkOverlap (("abc de").toList).length)).isPrefixOf
        (("de\n\nfghij").toList) = true) := by decide

/-- C7 witness: the buffer-level overlap property at a concrete
three-chunk input. -/
theorem C7_witness :
    ((DocumentChunker.chunk sizeCfg10 (("d").toList) textAAA none).map (fun c => c.content)
        = (DocumentChunker.sizeBuffers sizeCfg10 (normalizeCRLF textAAA)).map trimStr) ∧
    ∀ i (h1 : i < (DocumentChunker.sizeBuffers sizeCfg10 (normalizeCRLF textAAA)).length)
      (h2 : i + 1 < (DocumentChunker.sizeBuffers sizeCfg10 (normalizeCRLF textAAA)).length),
      (jsSliceNeg ((DocumentChunker.sizeBuffers sizeCfg10 (normalizeCRLF textAAA)).get ⟨i, h1⟩)
          (min sizeCfg10.chunkOverlap
            ((DocumentChunker.sizeBuffers sizeCfg10 (normalizeCRLF textAAA)).get ⟨i, h1⟩).length)).isPrefixOf
        ((DocumentChunker.sizeBuffers sizeCfg10 (normalizeCRLF textAAA)).get ⟨i + 1, h2⟩) = true :=
  C7_overlap_buffers sizeCfg10 (("d").toList) textAAA none rfl (by decide) (by decide)

/-! ## C8: empty chunks -/

/-- Size-mode configuration with `maxChunkSize 5`, `chunkOverlap 2`. -/
def wsCfg : ChunkCfg :=
  { maxChunkSize := 5, chunkOverlap := 2, separator := ['\n', '\n'],
    preserveStructure := false }

/-- Whitespace-only paragraphs followed by a real one. -/
def wsText : Str := ("   \n\n      \n\naaa").toList

/-- C8 (code bug): the chunker emits chunks with EMPTY content.  For
the empty document the short-text branch pushes its chunk
unconditionally, producing one chunk with content `""`; and in the long
path a mid-loop flush is guarded only by buffer nonemptiness (not by
`trim`), so an all-whitespace buffer is emitted as an empty chunk too
(for `wsText` the first two of the three chunks are empty).  The spec's
invariant that chunk content is non-empty and that all-whitespace
buffers are dropped is violated; only the final buffer is guarded by
`trim`. -/
theorem C8_empty_chunk_emitted :
    (DocumentChunker.chunk defaultChunkCfg (("d").toList) [] none).map
        (fun c => c.content) = [[]] ∧
    (DocumentChunker.chunk wsCfg (("d").toList) wsText none).map
        (fun c => c.content) = [[], [], ("aaa").toList] := by decide

/-! ## Store algebra (for C3, C4, C10) -/

def emptyStore : Store := { chunks := [], embeddings := [] }

/-- The ids of a chunk batch. -/
def keysOf (cs : List Chunk) : List Str := cs.map (fun c => c.id)

/-- The chunk row written by `addChunks` for a chunk. -/
def rowOf (c : Chunk) : ChunkRow :=
  { documentId := c.documentId, content := c.content, metadata := c.metadata.getD [] }

namespace VectorStore

theorem addStep_chunks (ef : Str → List ℚ) (st : Store) (c : Chunk) :
    (addStep ef st c).chunks = st.chunks.filter (fun e => e.1 ≠ c.id) ++ [(c.id, rowOf c)] := rfl

theorem addStep_embeddings (ef : Str → List ℚ) (st : Store) (c : Chunk) :
    (addStep ef st c).embeddings
      = st.embeddings.filter (fun e => e.1 ≠ c.id) ++ [(c.id, ef c.content)] := rfl

/-- Closed form of `addChunks`: the prior rows whose keys are not
re-inserted, in order, followed by the batch's own rows (the result of
adding the batch to the empty store). -/
theorem addChunks_closed (ef : Str → List ℚ) :
    ∀ (cs : List Chunk) (s : Store),
      addChunks ef cs s =
        { chunks := s.chunks.filter (fun e => e.1 ∉ keysOf cs)
            ++ (addChunks ef cs emptyStore).chunks
          embeddings := s.embeddings.filter (fun e => e.1 ∉ keysOf cs)
            ++ (addChunks ef cs emptyStore).embeddings } := by
  intro cs
  induction cs with
  | nil =>
    intro s
    show s = _
    cases s with
    | mk cL eL =>
      simp [addChunks, keysOf, emptyStore]
  | cons c cs ih =>
    intro s
    show addChunks ef cs (addStep ef s c) = _
    rw [ih (addStep ef s c)]
    have hrhs : addChunks ef (c :: cs) emptyStore = addChunks ef cs (addStep ef emptyStore c) := rfl
    rw [hrhs, ih (addStep ef emptyStore c)]
    have hchunks : (addStep ef s c).chunks.filter (fun e => e.1 ∉ keysOf cs)
        = s.chunks.filter (fun e => e.1 ∉ keysOf (c :: cs))
          ++ (addStep ef emptyStore c).chunks.filter (fun e => e.1 ∉ keysOf cs) := by
      rw [addStep_chunks, addStep_chunks, List.filter_append, List.filter_filter]
      have : (addStep ef emptyStore c).chunks = [(c.id, rowOf c)] := rfl
      congr 1
      apply List.filter_congr
      intro e _
      by_cases h1 : e.1 = c.id
      · simp [keysOf, h1]
      · simp [keysOf, h1]
    have hembs : (addStep ef s c).embeddings.filter (fun e => e.1 ∉ keysOf cs)
        = s.embeddings.filter (fun e => e.1 ∉ keysOf (c :: cs))
          ++ (addStep ef emptyStore c).embeddings.filter (fun e => e.1 ∉ keysOf cs) := by
      rw [addStep_embeddings, addStep_embeddings, List.filter_append, List.filter_filter]
      congr 1
      apply List.filter_congr
      intro e _
      by_cases h1 : e.1 = c.id
      · simp [keysOf, h1]
      · simp [keysOf, h1]
    cases s with
    | mk cL eL =>
      simp only [hchunks, hembs, List.append_assoc]

/-- Every chunk row inserted by a batch comes from a chunk of the
batch. -/
theorem addChunks_empty_chunks_mem (ef : Str → List ℚ) :
    ∀ (cs : List Chunk) e, e ∈ (addChunks ef cs emptyStore).chunks →
      ∃ c ∈ cs, e = (c.id, rowOf c) := by
  intro cs
  induction cs with
  | nil => intro e he; simp [addChunks, emptyStore] at he
  | cons c cs ih =>
    intro e he
    have h1 : addChunks ef (c :: cs) emptyStore = addChunks ef cs (addStep ef emptyStore c) := rfl
    rw [h1, addChunks_closed ef cs (addStep ef emptyStore c)] at he
    simp only [List.mem_append] at he
    rcases he with he | he
    · have := List.mem_filter.mp he
      have h2 : (addStep ef emptyStore c).chunks = [(c.id, rowOf c)] := rfl
      rw [h2] at this
      have h3 : e = (c.id, rowOf c) := by simpa using this.1
      exact ⟨c, by simp, h3⟩
    · obtain ⟨c', hc', he'⟩ := ih e he
      exact ⟨c', by simp [hc'], he'⟩

/-- The chunk rows and the embedding rows written by a batch carry the
same keys, in the same order. -/
theorem addChunks_empty_keys_eq (ef : Str → List ℚ) :
    ∀ (cs : List Chunk),
      (addChunks ef cs emptyStore).chunks.map (fun e => e.1)
        = (addChunks ef cs emptyStore).embeddings.map (fun e => e.1) := by
  intro cs
  induction cs with
  | nil => rfl
  | cons c cs ih =>
    have h1 : addChunks ef (c :: cs) emptyStore = addChunks ef cs (addStep ef emptyStore c) := rfl
    rw [h1, addChunks_closed ef cs (addStep ef emptyStore c)]
    have h2 : (addStep ef emptyStore c).chunks = [(c.id, rowOf c)] := rfl
    have h3 : (addStep ef emptyStore c).embeddings = [(c.id, ef c.content)] := rfl
    simp only [h2, h3, List.map_append]
    rw [ih]
    congr 1
    by_cases hmem : c.id ∈ keysOf cs
    · simp [hmem]
    · simp [hmem]

end VectorStore

theorem filter_idem (p : α → Bool) (l : List α) : (l.filter p).filter p = l.filter p :=
  List.filter_eq_self.mpr (fun _ ha => (List.mem_filter.mp ha).2)

/-- Every chunk produced by the chunker belongs to the document it was
asked to chunk. -/
theorem chunk_documentId (cfg : ChunkCfg) (documentId text : Str)
    (metadata : Option Meta) :
    ∀ c ∈ DocumentChunker.chunk cfg documentId text metadata,
      c.documentId = documentId := by
  intro c hc
  unfold DocumentChunker.chunk DocumentChunker.chunkWithStructure
    DocumentChunker.chunkBySize at hc
  split at hc
  · obtain ⟨j, x, _, hceq⟩ := mapIdxFrom_mem hc
    rw [hceq]
    rfl
  · dsimp only at hc
    split at hc
    · have hceq : c = DocumentChunker.createChunk documentId (normalizeCRLF text) 0 metadata := by
        simpa using hc
      rw [hceq]
      rfl
    · obtain ⟨j, x, _, hceq⟩ := mapIdxFrom_mem hc
      rw [hceq]
      rfl

namespace VectorStore

/-- Re-adding an identical batch after deleting its document restores
exactly the state after the first add: the heart of idempotent
reindexing.  `t` is any state holding no row of document `X` (such as
the state right after `deleteDocument X`). -/
theorem add_delete_add (ef : Str → List ℚ) (X : Str) (cs : List Chunk)
    (hdoc : ∀ c ∈ cs, c.documentId = X) (t : Store)
    (ht : ∀ e ∈ t.chunks, e.2.documentId ≠ X) :
    addChunks ef cs (deleteDocument X (addChunks ef cs t)) = addChunks ef cs t := by
  have hFCdoc : ∀ e ∈ (addChunks ef cs emptyStore).chunks, e.2.documentId = X := by
    intro e he
    obtain ⟨c, hc, hee⟩ := addChunks_empty_chunks_mem ef cs e he
    rw [hee]
    exact hdoc c hc
  have hFCkey : ∀ e ∈ (addChunks ef cs emptyStore).chunks, e.1 ∈ keysOf cs := by
    intro e he
    obtain ⟨c, hc, hee⟩ := addChunks_empty_chunks_mem ef cs e he
    rw [hee]
    exact List.mem_map.mpr ⟨c, hc, rfl⟩
  have hDA : deleteDocument X (addChunks ef cs t)
      = { chunks := t.chunks.filter (fun e => e.1 ∉ keysOf cs)
          embeddings := t.embeddings.filter (fun e => e.1 ∉ keysOf cs) } := by
    rw [addChunks_closed ef cs t]
    unfold deleteDocument docChunkIds
    have hc1 : (t.chunks.filter (fun e => e.1 ∉ keysOf cs)
          ++ (addChunks ef cs emptyStore).chunks).filter
            (fun e => e.2.documentId ≠ X)
        = t.chunks.filter (fun e => e.1 ∉ keysOf cs) := by
      rw [List.filter_append]
      have h1 : (t.chunks.filter (fun e => e.1 ∉ keysOf cs)).filter
          (fun e => e.2.documentId ≠ X)
          = t.chunks.filter (fun e => e.1 ∉ keysOf cs) := by
        apply List.filter_eq_self.mpr
        intro e he
        exact decide_eq_true (ht e (List.mem_filter.mp he).1)
      have h2 : (addChunks ef cs emptyStore).chunks.filter
          (fun e => e.2.documentId ≠ X) = [] := by
        apply List.filter_eq_nil_iff.mpr
        intro e he hdec
        exact of_decide_eq_true hdec (hFCdoc e he)
      rw [h1, h2, List.append_nil]
    have hdead : ((t.chunks.filter (fun e => e.1 ∉ keysOf cs)
          ++ (addChunks ef cs emptyStore).chunks).filter
            (fun e => e.2.documentId = X)).map (fun e => e.1)
        = (addChunks ef cs emptyStore).chunks.map (fun e => e.1) := by
      rw [List.filter_append]
      have h1 : (t.chunks.filter (fun e => e.1 ∉ keysOf cs)).filter
          (fun e => e.2.documentId = X) = [] := by
        apply List.filter_eq_nil_iff.mpr
        intro e he hdec
        exact ht e (List.mem_filter.mp he).1 (of_decide_eq_true hdec)
      have h2 : (addChunks ef cs emptyStore).chunks.filter
          (fun e => e.2.documentId = X) = (addChunks ef cs emptyStore).chunks := by
        apply List.filter_eq_self.mpr
        intro e he
        exact decide_eq_true (hFCdoc e he)
      rw [h1, h2, List.nil_append]
    have he1 : (t.embeddings.filter (fun e => e.1 ∉ keysOf cs)
          ++ (addChunks ef cs emptyStore).embeddings).filter
            (fun e => e.1 ∉ (addChunks ef cs emptyStore).chunks.map (fun e => e.1))
        = t.embeddings.filter (fun e => e.1 ∉ keysOf cs) := by
      rw [List.filter_append]
      have h1 : (t.embeddings.filter (fun e => e.1 ∉ keysOf cs)).filter
          (fun e => e.1 ∉ (addChunks ef cs emptyStore).chunks.map (fun e => e.1))
          = t.embeddings.filter (fun e => e.1 ∉ keysOf cs) := by
        apply List.filter_eq_self.mpr
        intro e he
        have hnotk : e.1 ∉ keysOf cs := of_decide_eq_true (List.mem_filter.mp he).2
        refine decide_eq_true ?_
        intro hmem
        obtain ⟨x, hx, hxe⟩ := List.mem_map.mp hmem
        exact hnotk (hxe ▸ hFCkey x hx)
      have h2 : (addChunks ef cs emptyStore).embeddings.filter
          (fun e => e.1 ∉ (addChunks ef cs emptyStore).chunks.map (fun e => e.1))
          = [] := by
        apply List.filter_eq_nil_iff.mpr
        intro e he hdec
        have hm : e.1 ∈ (addChunks ef cs emptyStore).embeddings.map (fun e => e.1) :=
          List.mem_map.mpr ⟨e, he, rfl⟩
        rw [← addChunks_empty_keys_eq ef cs] at hm
        exact of_decide_eq_true hdec hm
      rw [h1, h2, List.append_nil]
    simp only [hc1, hdead, he1]
  rw [hDA, addChunks_closed ef cs, addChunks_closed ef cs t]
  simp only [filter_idem]

end VectorStore

/-! ## C3: idempotent reindex -/

/-- C3 (confirmed): re-running `indexDocument` with the identical
document id, text and metadata reproduces exactly the same store state
(chunk ids, chunk count, contents, metadata and embeddings) as running
it once: the first run deletes any prior rows of the document and
inserts the freshly chunked rows; the second run deletes exactly those
rows and re-inserts identical ones. -/
theorem C3_indexDocument_idempotent (ef : Str → List ℚ) (cfg : ChunkCfg)
    (documentId text : Str) (metadata : Option Meta) (s : Store) :
    RAGService.indexDocument ef cfg documentId text metadata
        (RAGService.indexDocument ef cfg documentId text metadata s)
      = RAGService.indexDocument ef cfg documentId text metadata s := by
  unfold RAGService.indexDocument
  have hdoc := chunk_documentId cfg documentId text metadata
  have ht : ∀ e ∈ (VectorStore.deleteDocument documentId s).chunks,
      e.2.documentId ≠ documentId := by
    intro e he
    unfold VectorStore.deleteDocument at he
    have := (List.mem_filter.mp he).2
    simpa using this
  exact VectorStore.add_delete_add ef documentId _ hdoc _ ht

/-! ## C4: deletion completeness -/

namespace VectorStore

theorem mem_insortStr {a x : Str} : ∀ {l : List Str}, a ∈ insortStr x l ↔ a = x ∨ a ∈ l := by
  intro l
  induction l with
  | nil => simp [insortStr]
  | cons y ys ih =>
    unfold insortStr
    split
    · simp
    · simp only [List.mem_cons, ih]
      tauto

theorem mem_sortStrs {a : Str} : ∀ {l : List Str}, a ∈ sortStrs l ↔ a ∈ l := by
  intro l
  induction l with
  | nil => simp [sortStrs]
  | cons y ys ih =>
    show a ∈ insortStr y (sortStrs ys) ↔ _
    rw [mem_insortStr]
    simp [ih]

end VectorStore

/-- C4 (confirmed): `deleteDocument X` removes every chunk row of `X`
and every embedding row keyed by one of `X`'s chunk ids; afterwards
`listDocuments` no longer lists `X` and `getDocumentStats X` is
`(0, 0)`; and when the store holds no row of `X` the call leaves the
store unchanged. -/
theorem C4_deleteDocument_complete (s : Store) (X : Str) :
    (∀ e ∈ (VectorStore.deleteDocument X s).chunks, e.2.documentId ≠ X) ∧
    (∀ e ∈ (VectorStore.deleteDocument X s).embeddings,
      e.1 ∉ VectorStore.docChunkIds X s) ∧
    X ∉ VectorStore.listDocuments (VectorStore.deleteDocument X s) ∧
    VectorStore.getDocumentStats X (VectorStore.deleteDocument X s) = (0, 0) ∧
    ((∀ e ∈ s.chunks, e.2.documentId ≠ X) → VectorStore.deleteDocument X s = s) := by
  have hchunks : ∀ e ∈ (VectorStore.deleteDocument X s).chunks, e.2.documentId ≠ X := by
    intro e he
    unfold VectorStore.deleteDocument at he
    exact of_decide_eq_true (List.mem_filter.mp he).2
  refine ⟨hchunks, ?_, ?_, ?_, ?_⟩
  · intro e he
    unfold VectorStore.deleteDocument at he
    exact of_decide_eq_true (List.mem_filter.mp he).2
  · intro hmem
    unfold VectorStore.listDocuments at hmem
    rw [VectorStore.mem_sortStrs] at hmem
    obtain ⟨e, he, hX⟩ := List.mem_map.mp (List.mem_dedup.mp hmem)
    exact hchunks e he hX
  · unfold VectorStore.getDocumentStats
    have hnil : (VectorStore.deleteDocument X s).chunks.filter
        (fun e => e.2.documentId = X) = [] := by
      apply List.filter_eq_nil_iff.mpr
      intro e he hdec
      exact hchunks e he (of_decide_eq_true hdec)
    simp [hnil]
  · intro hnone
    unfold VectorStore.deleteDocument VectorStore.docChunkIds
    have h1 : s.chunks.filter (fun e => e.2.documentId ≠ X) = s.chunks :=
      List.filter_eq_self.mpr (fun e he => decide_eq_true (hnone e he))
    have h0 : s.chunks.filter (fun e => e.2.documentId = X) = [] := by
      apply List.filter_eq_nil_iff.mpr
      intro e he hdec
      exact hnone e he (of_decide_eq_true hdec)
    have h2 : s.embeddings.filter
        (fun e => e.1 ∉ (s.chunks.filter (fun e => e.2.documentId = X)).map
          (fun e => e.1)) = s.embeddings := by
      apply List.filter_eq_self.mpr
      intro e _
      rw [h0]
      simp
    rw [h1]
    show Store.mk s.chunks
        (s.embeddings.filter
          (fun e => e.1 ∉ (s.chunks.filter (fun e => e.2.documentId = X)).map
            (fun e => e.1))) = s
    rw [h2]

/-! ## C10: point-lookup round trip -/

theorem find?_append_of_none {p : α → Bool} {l1 l2 : List α}
    (h : l1.find? p = none) : (l1 ++ l2).find? p = l2.find? p := by
  induction l1 with
  | nil => simp
  | cons x xs ih =>
    cases hp : p x with
    | true => simp [List.find?_cons, hp] at h
    | false =>
      have hxs : xs.find? p = none := by simpa [List.find?_cons, hp] using h
      simpa [List.find?_cons, hp] using ih hxs

namespace VectorStore

/-- The rows written by a batch with pairwise-distinct ids contain, for
each chunk of the batch, exactly its own row under its own key. -/
theorem addChunks_empty_find (ef : Str → List ℚ) :
    ∀ (cs : List Chunk) (c : Chunk), c ∈ cs → (keysOf cs).Nodup →
      (addChunks ef cs emptyStore).chunks.find? (fun e => e.1 = c.id)
        = some (c.id, rowOf c) := by
  intro cs
  induction cs with
  | nil => intro c hc; simp at hc
  | cons c' cs ih =>
    intro c hc hnodup
    have hsplit : addChunks ef (c' :: cs) emptyStore
        = addChunks ef cs (addStep ef emptyStore c') := rfl
    rw [hsplit, addChunks_closed ef cs (addStep ef emptyStore c')]
    have hstep : (addStep ef emptyStore c').chunks = [(c'.id, rowOf c')] := rfl
    rw [hstep]
    have hnd1 : c'.id ∉ keysOf cs := by
      have := hnodup
      rw [show keysOf (c' :: cs) = c'.id :: keysOf cs from rfl] at this
      exact (List.nodup_cons.mp this).1
    have hnd2 : (keysOf cs).Nodup := by
      have := hnodup
      rw [show keysOf (c' :: cs) = c'.id :: keysOf cs from rfl] at this
      exact (List.nodup_cons.mp this).2
    have hkeeps : ([(c'.id, rowOf c')].filter (fun e => e.1 ∉ keysOf cs))
        = [(c'.id, rowOf c')] := by
      simp [hnd1]
    rcases List.mem_cons.mp hc with hcc | hcc
    · subst hcc
      dsimp only
      rw [hkeeps, List.singleton_append]
      simp [List.find?_cons]
    · have hne : c'.id ≠ c.id := by
        intro heq
        exact hnd1 (heq ▸ List.mem_map.mpr ⟨c, hcc, rfl⟩)
      dsimp only
      rw [hkeeps, List.singleton_append]
      rw [List.find?_cons]
      have hd : decide ((c'.id, rowOf c').1 = c.id) = false := by simp [hne]
      rw [hd]
      exact ih c hcc hnd2

end VectorStore

/-- C10 (confirmed): after `addChunks` of a batch with pairwise-distinct
ids, `getChunk` of any of the batch's chunk ids returns that chunk's
stored row — same id, document and content, `similarity` fixed at `1.0`
by convention, and metadata equal to the supplied map, defaulting to
the EMPTY map (not an absent value) when the chunk carried none; and
`getChunk` of an id not present in a store returns `none` rather than
throwing. -/
theorem C10_getChunk_roundtrip (ef : Str → List ℚ) (cs : List Chunk) (s : Store)
    (c : Chunk) (hc : c ∈ cs) (hnodup : (keysOf cs).Nodup) :
    (VectorStore.getChunk (VectorStore.addChunks ef cs s) c.id
      = some { chunkId := c.id, documentId := c.documentId, content := c.content,
               similarity := 1, metadata := c.metadata.getD [] }) ∧
    ∀ (s' : Store) (cid : Str), cid ∉ s'.chunks.map (fun e => e.1) →
      VectorStore.getChunk s' cid = none := by
  constructor
  · unfold VectorStore.getChunk
    rw [VectorStore.addChunks_closed ef cs s]
    have hnone : (s.chunks.filter (fun e => e.1 ∉ keysOf cs)).find?
        (fun e => e.1 = c.id) = none := by
      apply List.find?_eq_none.mpr
      intro e he hdec
      have h1 : e.1 ∉ keysOf cs := of_decide_eq_true (List.mem_filter.mp he).2
      have h2 : e.1 = c.id := of_decide_eq_true hdec
      exact h1 (h2 ▸ List.mem_map.mpr ⟨c, hc, rfl⟩)
    dsimp only
    rw [find?_append_of_none hnone,
      VectorStore.addChunks_empty_find ef cs c hc hnodup]
    rfl
  · intro s' cid hout
    unfold VectorStore.getChunk
    have hnone : s'.chunks.find? (fun e => e.1 = cid) = none := by
      apply List.find?_eq_none.mpr
      intro e he hdec
      exact hout ((of_decide_eq_true hdec) ▸ List.mem_map.mpr ⟨e, he, rfl⟩)
    rw [hnone]

/-! ## C5: retrieve pipeline -/

/-- C5 (confirmed): `retrieve` asks the store for `2 × maxResults`
candidates (forwarding the optional `documentId` restriction), keeps
exactly the candidates with `similarity ≥ minSimilarity`, truncates to
`maxResults`, and reports `chunkCount` as the length of the returned
(post-filter, post-truncation) result list; a search error propagates,
and an empty result list with `chunkCount = 0` is an ordinary `ok`
outcome (it is whatever the pipeline produces, never an error). -/
theorem C5_retrieve_pipeline (ef : Str → List ℚ) (useVec : Bool) (s : Store)
    (query : Str) (options : RAGRetrievalOptions) :
    (RAGService.retrieve ef useVec s query options
      = (VectorStore.search ef useVec s query (2 * options.maxResults.getD 3)
          options.documentId).map
        (fun cands =>
          { chunkCount := ((cands.filter
                (fun r => options.minSimilarity.getD 0 ≤ r.similarity)).take
                  (options.maxResults.getD 3)).length
            results := (cands.filter
                (fun r => options.minSimilarity.getD 0 ≤ r.similarity)).take
                  (options.maxResults.getD 3) })) ∧
    ∀ result, RAGService.retrieve ef useVec s query options = Except.ok result →
      result.chunkCount = result.results.length ∧
      result.results.length ≤ options.maxResults.getD 3 ∧
      ∀ r ∈ result.results, options.minSimilarity.getD 0 ≤ r.similarity := by
  have hmain : RAGService.retrieve ef useVec s query options
      = (VectorStore.search ef useVec s query (2 * options.maxResults.getD 3)
          options.documentId).map
        (fun cands =>
          { chunkCount := ((cands.filter
                (fun r => options.minSimilarity.getD 0 ≤ r.similarity)).take
                  (options.maxResults.getD 3)).length
            results := (cands.filter
                (fun r => options.minSimilarity.getD 0 ≤ r.similarity)).take
                  (options.maxResults.getD 3) }) := by
    unfold RAGService.retrieve
    dsimp only
    rw [Nat.mul_comm (options.maxResults.getD 3) 2]
    cases VectorStore.search ef useVec s query (2 * options.maxResults.getD 3)
      options.documentId with
    | error e => rfl
    | ok cands => rfl
  refine ⟨hmain, ?_⟩
  intro result hres
  rw [hmain] at hres
  cases hsearch : VectorStore.search ef useVec s query (2 * options.maxResults.getD 3)
      options.documentId with
  | error e => rw [hsearch] at hres; cases hres
  | ok cands =>
    rw [hsearch] at hres
    have hresult : result
        = { chunkCount := ((cands.filter
              (fun r => options.minSimilarity.getD 0 ≤ r.similarity)).take
                (options.maxResults.getD 3)).length
            results := (cands.filter
              (fun r => options.minSimilarity.getD 0 ≤ r.similarity)).take
                (options.maxResults.getD 3) } := by
      cases hres
      rfl
    rw [hresult]
    refine ⟨rfl, List.length_take_le _ _, ?_⟩
    intro r hr
    have := (List.mem_filter.mp (List.mem_of_mem_take hr)).2
    exact of_decide_eq_true this

/-! ## C9: zero-norm safety -/

/-- C9 (corrected): for equal-length vectors neither similarity
function throws; when either vector has zero norm (sum of squares
zero), `VectorStore.cosineSimilarity` — the function used by `search` —
returns `0` thanks to its `magnitude > 0` guard, while
`EmbeddingService.cosineSimilarity` has NO guard and performs the
division, producing NaN (modelled `none`), not `0`: the claim holds for
the vector-store helper only. -/
theorem C9_zero_norm (a b : List ℚ) (hlen : a.length = b.length)
    (hzero : sumSq a = 0 ∨ sumSq b = 0) :
    VectorStore.cosineSimilarity a b = Except.ok 0 ∧
    EmbeddingService.cosineSimilarity a b = Except.ok none := by
  have hmag : sqrtQ (sumSq a) * sqrtQ (sumSq b) = 0 := by
    rcases hzero with h | h
    · rw [h, sqrtQ_zero, zero_mul]
    · rw [h, sqrtQ_zero, mul_zero]
  unfold VectorStore.cosineSimilarity EmbeddingService.cosineSimilarity
  rw [if_neg (by omega), if_neg (by omega)]
  constructor
  · rw [hmag]
    simp
  · rw [hmag]
    simp

/-- C9 counterexample: the embedding-service helper on the zero vector
against `[1]` divides `0 / 0` and yields NaN (`none`), not the claimed
similarity `0`. -/
theorem C9_counterexample :
    EmbeddingService.cosineSimilarity [0] [1] = Except.ok none ∧
    (Except.ok none : Except String (Option ℚ)) ≠ Except.ok (some 0) := by
  constructor
  · norm_num [EmbeddingService.cosineSimilarity, sumSq, dotProd, sqrtQ]
  · intro h
    cases h

/-- C9 witness: the corrected statement at the zero vector `[0, 0]`
against `[0, 3]`. -/
theorem C9_witness :
    VectorStore.cosineSimilarity [0, 0] [0, 3] = Except.ok 0 ∧
    EmbeddingService.cosineSimilarity [0, 0] [0, 3] = Except.ok none :=
  C9_zero_norm [0, 0] [0, 3] rfl (Or.inl (by norm_num [sumSq]))

/-! ## C2: backend equivalence -/

theorem int_toNat_25 : (25 : ℤ).toNat = 25 := rfl

theorem nat_sqrt_25 : Nat.sqrt 25 = 5 := by
  rw [show (25 : ℕ) = 5 ^ 2 from rfl, Nat.sqrt_eq']

/-- Query embedding: the unit vector `[1, 0]` for any query text. -/
def qEf : Str → List ℚ := fun _ => [1, 0]

def rowB0 : ChunkRow :=
  { documentId := ("b").toList, content := ("bee zero").toList, metadata := [] }

def rowB1 : ChunkRow :=
  { documentId := ("b").toList, content := ("bee one").toList, metadata := [] }

def rowA0 : ChunkRow :=
  { documentId := ("a").toList, content := ("ay zero").toList, metadata := [] }

/-- A store with two chunks of document `"b"` close to the query
(`[1,0]`, `[3,4]`) and one chunk of document `"a"` far from it
(`[0,1]`); all vectors have perfect-square norms, so `sqrtQ` is the
exact square root throughout. -/
def cexStore : Store :=
  { chunks := [(("b-0").toList, rowB0), (("b-1").toList, rowB1), (("a-0").toList, rowA0)]
    embeddings := [(("b-0").toList, [1, 0]), (("b-1").toList, [3, 4]), (("a-0").toList, [0, 1])] }

/-- Document `"a"`'s only chunk, with cosine similarity 0 to the query. -/
def resA0 : SearchResult :=
  { chunkId := ("a-0").toList
    documentId := ("a").toList
    content := ("ay zero").toList
    similarity := 0
    metadata := [] }

/-- C2 (code bug): same stored chunks, same query vector, a
`documentId` filter for `"a"` and `limit 1` (fewer than the 3 stored
chunks): the accelerated sqlite-vec path returns NO results while the
brute-force fallback returns document `"a"`'s chunk — the SQL applies
the `document_id` filter AFTER the `k = limit · 2` nearest-neighbour
selection, so the two closer `"b"` chunks crowd `"a-0"` out of the
candidate set.  The two paths disagree on content, documentId,
similarity, metadata and ranking alike, violating the spec's
backend-equivalence requirement. -/
theorem C2_backend_divergence :
    VectorStore.search qEf true cexStore (("q").toList) 1 (some (("a").toList))
      = Except.ok [] ∧
    VectorStore.search qEf false cexStore (("q").toList) 1 (some (("a").toList))
      = Except.ok [resA0] ∧
    (Except.ok [] : Except String (List SearchResult)) ≠ Except.ok [resA0] := by
  refine ⟨?_, ?_, ?_⟩
  · show VectorStore.vecSearch cexStore [1, 0] 1 (some (("a").toList)) = Except.ok []
    norm_num [VectorStore.vecSearch, cexStore, rowA0, rowB0, rowB1, VectorStore.embJoin,
      VectorStore.vecCosineDistance, VectorStore.cosineSimilarity, sumSq, dotProd, sqrtQ,
      VectorStore.sortAscByDist, VectorStore.insAscByDist,
      List.mapM, List.mapM.loop, bind, Except.bind, Except.map, pure, Except.pure,
      List.filterMap, List.find?, List.filter, int_toNat_25, nat_sqrt_25]
    decide
  · show VectorStore.fallbackSearch cexStore [1, 0] 1 (some (("a").toList))
      = Except.ok [resA0]
    norm_num [VectorStore.fallbackSearch, cexStore, rowA0, rowB0, rowB1,
      VectorStore.chunkJoin, resA0,
      VectorStore.cosineSimilarity, sumSq, dotProd, sqrtQ,
      VectorStore.sortDescBySim, VectorStore.insDescBySim,
      List.mapM, List.mapM.loop, bind, Except.bind, Except.map, pure, Except.pure,
      List.filterMap, List.find?, List.filter, int_toNat_25, nat_sqrt_25]
  · intro h
    cases h

/-! ## Remaining witnesses -/

/-- Embedding function used by witnesses where the vector values are
irrelevant. -/
def nilEf : Str → List ℚ := fun _ => []

/-- A one-document store (document `"b"` only). -/
def wStoreB : Store :=
  { chunks := [(("b-0").toList, rowB0)], embeddings := [(("b-0").toList, [])] }

/-- A single chunk of document `"x"` with no metadata. -/
def chunkX : Chunk :=
  { id := ("x-0").toList, documentId := ("x").toList, content := ("hello").toList,
    index := 0, metadata := none }

/-- Options record with every field left to its default. -/
def defOpts : RAGRetrievalOptions :=
  { maxResults := none, minSimilarity := none, documentId := none, showScores := none }

/-- C3 witness: double-indexing a concrete document equals indexing it
once. -/
theorem C3_witness :
    RAGService.indexDocument nilEf defaultChunkCfg (("doc").toList) (("hello").toList)
        none
        (RAGService.indexDocument nilEf defaultChunkCfg (("doc").toList)
          (("hello").toList) none emptyStore)
      = RAGService.indexDocument nilEf defaultChunkCfg (("doc").toList)
          (("hello").toList) none emptyStore :=
  C3_indexDocument_idempotent nilEf defaultChunkCfg (("doc").toList)
    (("hello").toList) none emptyStore

/-- C4 witness: deletion completeness at a concrete one-document store,
deleting the absent document `"a"`. -/
theorem C4_witness :
    (∀ e ∈ (VectorStore.deleteDocument (("a").toList) wStoreB).chunks,
      e.2.documentId ≠ ("a").toList) ∧
    (∀ e ∈ (VectorStore.deleteDocument (("a").toList) wStoreB).embeddings,
      e.1 ∉ VectorStore.docChunkIds (("a").toList) wStoreB) ∧
    ("a").toList ∉ VectorStore.listDocuments
      (VectorStore.deleteDocument (("a").toList) wStoreB) ∧
    VectorStore.getDocumentStats (("a").toList)
      (VectorStore.deleteDocument (("a").toList) wStoreB) = (0, 0) ∧
    ((∀ e ∈ wStoreB.chunks, e.2.documentId ≠ ("a").toList) →
      VectorStore.deleteDocument (("a").toList) wStoreB = wStoreB) :=
  C4_deleteDocument_complete wStoreB (("a").toList)

/-- C5 witness: the retrieve pipeline at a concrete empty store with
default options. -/
theorem C5_witness :
    (RAGService.retrieve nilEf false emptyStore (("q").toList) defOpts
      = (VectorStore.search nilEf false emptyStore (("q").toList)
          (2 * defOpts.maxResults.getD 3) defOpts.documentId).map
        (fun cands =>
          { chunkCount := ((cands.filter
                (fun r => defOpts.minSimilarity.getD 0 ≤ r.similarity)).take
                  (defOpts.maxResults.getD 3)).length
            results := (cands.filter
                (fun r => defOpts.minSimilarity.getD 0 ≤ r.similarity)).take
                  (defOpts.maxResults.getD 3) })) ∧
    ∀ result, RAGService.retrieve nilEf false emptyStore (("q").toList) defOpts
        = Except.ok result →
      result.chunkCount = result.results.length ∧
      result.results.length ≤ defOpts.maxResults.getD 3 ∧
      ∀ r ∈ result.results, defOpts.minSimilarity.getD 0 ≤ r.similarity :=
  C5_retrieve_pipeline nilEf false emptyStore (("q").toList) defOpts

/-- C10 witness: the round trip for one concrete chunk stored without
metadata. -/
theorem C10_witness :
    (VectorStore.getChunk (VectorStore.addChunks nilEf [chunkX] emptyStore) chunkX.id
      = some { chunkId := chunkX.id, documentId := chunkX.documentId,
               content := chunkX.content, similarity := 1,
               metadata := chunkX.metadata.getD [] }) ∧
    ∀ (s' : Store) (cid : Str), cid ∉ s'.chunks.map (fun e => e.1) →
      VectorStore.getChunk s' cid = none :=
  C10_getChunk_roundtrip nilEf [chunkX] emptyStore chunkX
    (List.mem_singleton.mpr rfl) (by simp [keysOf])
